import Mathlib

/-!
Verification development for the lichen codename pipeline
(`code_sciname.py`): a shallow embedding of the name canonicalizer,
the scientific-name parser, the base-key deriver, the per-group
collision resolver, and the fill-only join, together with theorems
settling the specification claims.

Strings are embedded as `List Char` (one entry per Python character).
The three Unicode-dependent primitives used by `normalize_token`
(`unicodedata.normalize("NFKD", ...)`, `unicodedata.combining`, and
`str.lower`) are kept abstract in a `PyUnicode` record of
character-level tables; `asciiTables` instantiates them exactly as
CPython behaves on ASCII code points (NFKD is the identity, no ASCII
character is a combining mark, and lowercasing is `Char.toLower`).
-/

/-- The 26 characters matched by the regex class `[a-z]` in
`normalize_token`. -/
def lowerChars : List Char := "abcdefghijklmnopqrstuvwxyz".data

/-- The 10 decimal-digit characters produced by Python's decimal
formatting of the numeric tie-break suffix. -/
def digitChars : List Char := "0123456789".data

/-- The characters matched by the species-token regex `[A-Za-z-]` in
`parse_scientific_name`. -/
def alphaHyphenChars : List Char :=
  "ABCDEFGHIJKLMNOPQRSTUVWXYZabcdefghijklmnopqrstuvwxyz-".data

/-- The 52 ASCII Latin letters. -/
def latinLetters : List Char :=
  "ABCDEFGHIJKLMNOPQRSTUVWXYZabcdefghijklmnopqrstuvwxyz".data

/-- Character-level tables for the Unicode primitives used by
`normalize_token` and `parse_scientific_name`: `nfkd` is the NFKD
decomposition of one character, `combining` tells whether a character
is a combining mark, `lower` is per-character lowercasing. -/
structure PyUnicode where
  nfkd : Char → List Char
  combining : Char → Bool
  lower : Char → List Char

/-- The tables as CPython behaves on ASCII code points: NFKD is the
identity, no ASCII character is combining, and `str.lower` agrees with
`Char.toLower` character by character. -/
def asciiTables : PyUnicode :=
  ⟨fun c => [c], fun _ => false, fun c => [c.toLower]⟩

/-- `normalize_token`: NFKD-decompose, drop combining marks, lowercase,
and keep only the characters `a`-`z` (the `re.sub(r"[^a-z]", "", s)`
step). -/
def normalize_token (T : PyUnicode) (s : List Char) : List Char :=
  ((((s.flatMap T.nfkd).filter (fun c => !T.combining c)).flatMap
      T.lower)).filter (fun c => lowerChars.contains c)

/-- Accumulator loop for whitespace tokenization (`str.split()` with no
separator: split on whitespace runs, drop empty pieces). -/
def splitWsAux : List Char → List Char → List (List Char)
  | [], acc => if acc = [] then [] else [acc.reverse]
  | c :: cs, acc =>
    if c.isWhitespace then
      if acc = [] then splitWsAux cs []
      else acc.reverse :: splitWsAux cs []
    else splitWsAux cs (c :: acc)

/-- `s.strip().split()`: the whitespace token list of a raw name. -/
def splitWs (l : List Char) : List (List Char) := splitWsAux l []

/-- `raw.lower()` on a whole token, through the abstract per-character
lowercasing table. -/
def pyLowerTok (T : PyUnicode) (l : List Char) : List Char :=
  l.flatMap T.lower

/-- `t.strip(".")`: remove leading and trailing `.` characters. -/
def pyStripDots (l : List Char) : List Char :=
  ((l.dropWhile (fun c => c = '.')).reverse.dropWhile
      (fun c => c = '.')).reverse

/-- The uncertainty-qualifier set
`{"sp", "sp.", "cf", "cf.", "aff", "aff.", "nr", "nr."}`. -/
def uncSet : List (List Char) :=
  (["sp", "sp.", "cf", "cf.", "aff", "aff.", "nr", "nr."]).map
    String.data

/-- The rank-qualifier set `{"subsp", "ssp", "var", "forma", "f"}`. -/
def rankSet : List (List Char) :=
  (["subsp", "ssp", "var", "forma", "f"]).map String.data

/-- `re.fullmatch(r"[A-Za-z-]+", raw)`: non-empty and drawn from
letters and hyphen. -/
def isAlphaHyphenTok (l : List Char) : Bool :=
  !l.isEmpty && l.all (fun c => alphaHyphenChars.contains c)

/-- A parsed taxon: normalized genus, species and subspecies fields. -/
structure ParsedTaxon where
  genus : List Char
  species : List Char
  subspecies : List Char
deriving DecidableEq

/-- The token scan of `parse_scientific_name` over the tokens after the
genus, carrying the species and subspecies fields.  Branch order as in
the source: uncertainty qualifier (skip two), first clean alphabetic
token becomes the species, rank qualifier with a following token sets
the subspecies, anything else is skipped. -/
def parseLoop (T : PyUnicode) :
    List (List Char) → List Char → List Char → List Char × List Char
  | [], sp, sub => (sp, sub)
  | raw :: rest, sp, sub =>
    let t := pyStripDots (pyLowerTok T raw)
    if uncSet.contains t then
      match rest with
      | [] => (sp, sub)
      | _ :: rest2 => parseLoop T rest2 sp sub
    else if sp.isEmpty && isAlphaHyphenTok raw then
      parseLoop T rest (normalize_token T raw) sub
    else
      match rest with
      | [] => (sp, sub)
      | next :: rest2 =>
        if rankSet.contains t then
          parseLoop T rest2 sp (normalize_token T next)
        else
          parseLoop T (next :: rest2) sp sub

/-- `parse_scientific_name`: tokenize, normalize the first token as the
genus, and scan the remaining tokens with `parseLoop`.  (The Python
non-string branch returning `("", "", "")` is outside the `String`
domain of this embedding.) -/
def parse_scientific_name (T : PyUnicode) (s : String) : ParsedTaxon :=
  match splitWs s.data with
  | [] => ⟨[], [], []⟩
  | tok0 :: rest =>
    let p := parseLoop T rest [] []
    ⟨normalize_token T tok0, p.1, p.2⟩

/-- `base_code`: first three characters of genus, species and
subspecies, concatenated and lowercased.  (`str.lower` agrees with
`Char.toLower` on the ASCII alphabet the normalized fields live in.) -/
def base_code (genus species subspecies : List Char) : List Char :=
  ((genus.take 3 ++ species.take 3 ++ subspecies.take 3)).map
    Char.toLower

/-- `s[idx] if idx < len(s) else ""`: the one-character extension taken
from a species epithet at a given offset. -/
def charAt (s : List Char) (idx : Nat) : List Char :=
  match s.get? idx with
  | some c => [c]
  | none => []

/-- Whether the current codename list has a live collision: some value
occurring at least twice (some bucket of size greater than one). -/
def anyCollision (codes : List (List Char)) : Bool :=
  codes.any (fun c => decide (2 ≤ codes.count c))

/-- One iteration of the extension loop at offset `idx`: every member
whose current codename collides (its bucket has size at least two)
appends the character of its species epithet at `idx` (nothing when the
epithet is shorter). -/
def extendStep (species codes : List (List Char)) (idx : Nat) :
    List (List Char) :=
  (species.zip codes).map
    (fun p => if 2 ≤ codes.count p.2 then p.2 ++ charAt p.1 idx else p.2)

/-- The extension loop `for idx in range(...)`: at each offset, stop if
no value collides, otherwise extend the colliding members and move to
the next offset.  `fuel` is the number of remaining offsets
(`range(3, max_len)` gives `max_len - 3` of them starting at 3). -/
def extendLoop :
    List (List Char) → List (List Char) → Nat → Nat → List (List Char)
  | _, codes, _, 0 => codes
  | species, codes, idx, fuel + 1 =>
    if anyCollision codes then
      extendLoop species (extendStep species codes idx) (idx + 1) fuel
    else codes

/-- `max(len(s) for s in species_list)` (0 on the empty list, which the
source never reaches). -/
def maxLen (l : List (List Char)) : Nat :=
  l.foldl (fun a s => max a s.length) 0

/-- The decimal digit character of a value below ten. -/
def digitChar (n : Nat) : Char := digitChars.getD n '9'

/-- Fuelled decimal formatting of a natural number (most significant
digit first), mirroring Python's `str` of the suffix counter. -/
def natDigitsAux : Nat → Nat → List Char
  | 0, _ => []
  | fuel + 1, n =>
    if n < 10 then [digitChar n]
    else natDigitsAux fuel (n / 10) ++ [digitChar (n % 10)]

/-- Decimal representation of a natural number as characters. -/
def natDigits (n : Nat) : List Char := natDigitsAux (n + 1) n

/-- Value of a decimal digit string (used only to invert
`natDigits`). -/
def digitsVal (l : List Char) : Nat :=
  l.foldl (fun a c => 10 * a + (c.toNat - 48)) 0

/-- The fallback scan with its `seen` occurrence table: the first
occurrence of a value is kept, the k-th further occurrence gets the
decimal suffix k+1 appended (second duplicate gets `2`, and so on). -/
def fb : List (List Char) → (List Char → Nat) → List (List Char)
  | [], _ => []
  | c :: rest, seen =>
    if seen c = 0 then
      c :: fb rest (fun x => if x = c then 1 else seen x)
    else
      (c ++ natDigits (seen c + 1)) ::
        fb rest (fun x => if x = c then seen c + 1 else seen x)

/-- The unconditional numeric-suffix fallback pass over a codename
list. -/
def fallback (codes : List (List Char)) : List (List Char) :=
  fb codes (fun _ => 0)

/-- `resolve_ties` on one base-key group, taking the shared base key
(`group.name`) and the group's `species_full` column in row order, and
returning the `codename` column: a single row keeps the base unchanged;
otherwise every codename starts from the base, the extension loop runs
over offsets `3, ..., max_len - 1`, and the fallback pass is applied.
(The source raises on an empty group, which pandas `groupby` never
produces; the embedding returns `[]` there.) -/
def resolve_ties (base : List Char) (group : List (List Char)) :
    List (List Char) :=
  match group with
  | [] => []
  | [_] => [base]
  | _ =>
    fallback
      (extendLoop group (List.replicate group.length base) 3
        (maxLen group - 3))

/-- The parsed base key of one raw reference row (`parse` followed by
`base_code`, as in `main`). -/
def baseKeyOf (T : PyUnicode) (s : String) : List Char :=
  base_code (parse_scientific_name T s).genus
    (parse_scientific_name T s).species
    (parse_scientific_name T s).subspecies

/-- The `species_full` value of one raw reference row (the normalized
species field). -/
def speciesOf (T : PyUnicode) (s : String) : List Char :=
  (parse_scientific_name T s).species

/-- The distinct base keys of a reference table, in first-occurrence
order.  (pandas `groupby` enumerates the same keys in sorted order; the
group contents and per-row codenames do not depend on that order.) -/
def keysOf (T : PyUnicode) (rows : List String) : List (List Char) :=
  (rows.map (baseKeyOf T)).dedup

/-- The rows of one collision group, in original table order. -/
def groupRows (T : PyUnicode) (rows : List String) (k : List Char) :
    List String :=
  rows.filter (fun r => baseKeyOf T r = k)

/-- All codenames produced by running the parse / base-key / resolve
pipeline over a whole reference table, grouped by base key. -/
def allCodenames (T : PyUnicode) (rows : List String) :
    List (List Char) :=
  (keysOf T rows).flatMap
    (fun k => resolve_ties k ((groupRows T rows k).map (speciesOf T)))

/-- One row of the deduplicated codename-to-name mapping table. -/
structure MappingRow where
  codename : String
  sci_name : String
deriving DecidableEq

/-- One row of the target (`air`) table: the lookup-code column, the
`Name` column (`none` models a missing value), and the remaining
columns as name-value pairs. -/
structure AirRow where
  code : String
  name : Option String
  other : List (String × Option String)
deriving DecidableEq

/-- One row after the left merge: the target row's fields plus the two
columns `codename` and `sci_name` brought in from the mapping table
(`none` models the missing values of an unmatched row). -/
structure MergedRow where
  code : String
  name : Option String
  other : List (String × Option String)
  codename : Option String
  sci_name : Option String
deriving DecidableEq

/-- `str.strip()`: remove leading and trailing whitespace. -/
def pyStrip (s : String) : String :=
  ⟨((s.data.dropWhile Char.isWhitespace).reverse.dropWhile
      Char.isWhitespace).reverse⟩

/-- The blank test of `main`: missing, or stripping to the empty
string. -/
def isBlank (v : Option String) : Bool :=
  match v with
  | none => true
  | some s => pyStrip s = ""

/-- The conditional fill `merged.loc[is_blank, name_col] =
merged.loc[is_blank, "sci_name"]`, on one merged row. -/
def fillName (r : MergedRow) : MergedRow :=
  if isBlank r.name then
    ⟨r.code, r.sci_name, r.other, r.codename, r.sci_name⟩
  else r

/-- The mapping rows matching one target row's lookup code (the merge
key equality `air[code_col] == mapping["codename"]`). -/
def rowMatches (mapping : List MappingRow) (r : AirRow) :
    List MappingRow :=
  mapping.filter (fun m => m.codename = r.code)

/-- The left-merge expansion of one target row: an unmatched row is
kept once with missing `codename` and `sci_name`; a matched row is
repeated once per matching mapping row. -/
def rowJoin (mapping : List MappingRow) (r : AirRow) :
    List MergedRow :=
  match rowMatches mapping r with
  | [] => [⟨r.code, r.name, r.other, none, none⟩]
  | ms =>
    ms.map (fun m => ⟨r.code, r.name, r.other, some m.codename,
      some m.sci_name⟩)

/-- The join of `main`: left-merge the mapping onto the target table,
then fill the `Name` column where blank. -/
def joinFill (air : List AirRow) (mapping : List MappingRow) :
    List MergedRow :=
  (air.flatMap (rowJoin mapping)).map fillName

/-- The name column constant of `main`. -/
def name_col : String := "Name"

/-- The lookup-code column constant of `main`. -/
def air_code_col : String :=
  "Code for scientific name and authority in lookup table"

/-- The column list of a target row (code column, name column, then
the remaining columns). -/
def AirRow.columns (r : AirRow) : List String :=
  air_code_col :: name_col :: r.other.map Prod.fst

/-- The column list of a merged row: the target columns followed by the
two columns appended by the merge. -/
def MergedRow.columns (r : MergedRow) : List String :=
  (air_code_col :: name_col :: r.other.map Prod.fst) ++
    ["codename", "sci_name"]

/-- The column list of the merged table as a function of the target
table's columns: pandas `merge` appends the right frame's columns. -/
def mergedCols (airCols : List String) : List String :=
  airCols ++ ["codename", "sci_name"]

/-- The guarded fill step of `main`: raise `ValueError` when the merged
table has no `Name` column, otherwise fill the blank names. -/
def run_fill (cols : List String) (rows : List MergedRow) :
    Except String (List MergedRow) :=
  if name_col ∈ cols then Except.ok (rows.map fillName)
  else Except.error "Name column 'Name' not found in air file."

/-! ### Character and digit facts -/

/-- No lowercase letter is a decimal digit. -/
theorem lower_not_digit : ∀ c ∈ lowerChars, c ∉ digitChars := by decide

/-- Every Latin letter lowercases into the `a`-`z` alphabet. -/
theorem latin_toLower_mem : ∀ c ∈ latinLetters, c.toLower ∈ lowerChars := by
  decide

/-- `digitChar` always yields a decimal digit character. -/
theorem digitChar_mem (n : Nat) : digitChar n ∈ digitChars := by
  rw [digitChar, List.getD_eq_getElem?_getD]
  cases h : digitChars[n]? with
  | none => simp [h]; decide
  | some c =>
    have := List.getElem?_mem h
    simpa [h] using this

/-- Value of a digit character below ten. -/
theorem digitChar_val {n : Nat} (h : n < 10) :
    (digitChar n).toNat - 48 = n := by
  interval_cases n <;> decide

/-- `digitsVal` of a list with one digit appended. -/
theorem digitsVal_concat (l : List Char) (c : Char) :
    digitsVal (l ++ [c]) = 10 * digitsVal l + (c.toNat - 48) := by
  rw [digitsVal, List.foldl_append]
  rfl

/-- The fuelled decimal formatter is never empty when given fuel. -/
theorem natDigitsAux_ne_nil (fuel n : Nat) :
    natDigitsAux (fuel + 1) n ≠ [] := by
  rw [natDigitsAux]
  split
  · simp
  · exact List.append_ne_nil_of_right_ne_nil _ (by simp)

/-- Every character the fuelled decimal formatter emits is a digit. -/
theorem natDigitsAux_digits :
    ∀ fuel n, ∀ c ∈ natDigitsAux fuel n, c ∈ digitChars := by
  intro fuel
  induction fuel with
  | zero => intro n c hc; simp [natDigitsAux] at hc
  | succ fuel ih =>
    intro n c hc
    rw [natDigitsAux] at hc
    split at hc
    · rcases List.mem_singleton.1 hc with rfl
      exact digitChar_mem n
    · rcases List.mem_append.1 hc with h | h
      · exact ih _ c h
      · rcases List.mem_singleton.1 h with rfl
        exact digitChar_mem _

/-- The fuelled decimal formatter round-trips through `digitsVal`. -/
theorem digitsVal_natDigitsAux :
    ∀ fuel n, n < fuel → digitsVal (natDigitsAux fuel n) = n := by
  intro fuel
  induction fuel with
  | zero => intro n h; omega
  | succ fuel ih =>
    intro n h
    rw [natDigitsAux]
    split
    · rename_i h10
      show digitsVal ([] ++ [digitChar n]) = n
      rw [digitsVal_concat, digitChar_val h10]
      simp [digitsVal]
    · rename_i h10
      rw [digitsVal_concat, digitChar_val (Nat.mod_lt n (by omega))]
      have hdiv : n / 10 < n := Nat.div_lt_self (by omega) (by omega)
      rw [ih (n / 10) (by omega)]
      omega

/-- Decimal formatting is never empty. -/
theorem natDigits_ne_nil (n : Nat) : natDigits n ≠ [] :=
  natDigitsAux_ne_nil n n

/-- Decimal formatting emits only digit characters. -/
theorem natDigits_digits (n : Nat) : ∀ c ∈ natDigits n, c ∈ digitChars :=
  natDigitsAux_digits (n + 1) n

/-- Decimal formatting is injective. -/
theorem natDigits_inj {a b : Nat} (h : natDigits a = natDigits b) :
    a = b := by
  have ha := digitsVal_natDigitsAux (a + 1) a (by omega)
  have hb := digitsVal_natDigitsAux (b + 1) b (by omega)
  rw [natDigits] at h
  rw [natDigits] at h
  rw [h] at ha
  omega

/-! ### Append comparison -/

/-- Two decompositions of one list: the shorter front part is an
initial segment of the longer one. -/
theorem append_eq_cases :
    ∀ (l1 l2 a b : List Char), l1 ++ a = l2 ++ b →
      (∃ t, l2 = l1 ++ t ∧ a = t ++ b) ∨
        (∃ t, l1 = l2 ++ t ∧ b = t ++ a) := by
  intro l1
  induction l1 with
  | nil =>
    intro l2 a b h
    exact Or.inl ⟨l2, rfl, h⟩
  | cons c cs ih =>
    intro l2 a b h
    cases l2 with
    | nil => exact Or.inr ⟨c :: cs, rfl, h.symm⟩
    | cons d ds =>
      have hcd : c = d := by
        have := congrArg (fun l => l.head?) h
        simpa using this
      have htail : cs ++ a = ds ++ b := by
        have := congrArg List.tail h
        simpa using this
      rcases ih ds a b htail with ⟨t, h1, h2⟩ | ⟨t, h1, h2⟩
      · exact Or.inl ⟨t, by rw [hcd, h1]; rfl, h2⟩
      · exact Or.inr ⟨t, by rw [hcd, h1]; rfl, h2⟩

/-! ### Fallback pass -/

/-- The fallback pass emits exactly one codename per member. -/
theorem fb_length :
    ∀ codes seen, (fb codes seen).length = codes.length := by
  intro codes
  induction codes with
  | nil => intro seen; rfl
  | cons c rest ih =>
    intro seen
    rw [fb]
    split <;> simp [ih]

/-- Every output of the fallback pass extends some input codename. -/
theorem fb_mem_weak :
    ∀ codes seen x, x ∈ fb codes seen →
      ∃ c ∈ codes, ∃ t, x = c ++ t := by
  intro codes
  induction codes with
  | nil => intro seen x hx; simp [fb] at hx
  | cons c rest ih =>
    intro seen x hx
    rw [fb] at hx
    split at hx <;> rcases List.mem_cons.1 hx with h | hx'
    · exact ⟨c, List.mem_cons_self c rest, [],
        by rw [h, List.append_nil]⟩
    · rcases ih _ x hx' with ⟨d, hd, t, ht⟩
      exact ⟨d, List.mem_cons_of_mem c hd, t, ht⟩
    · exact ⟨c, List.mem_cons_self c rest, _, h⟩
    · rcases ih _ x hx' with ⟨d, hd, t, ht⟩
      exact ⟨d, List.mem_cons_of_mem c hd, t, ht⟩

/-- Shape of every output of the fallback pass: a first occurrence of a
value whose count was zero, or a value with a decimal suffix strictly
above its count at call time (and at least 2). -/
theorem fb_mem :
    ∀ codes seen x, x ∈ fb codes seen →
      (∃ c ∈ codes, seen c = 0 ∧ x = c) ∨
        (∃ c ∈ codes, ∃ n, 2 ≤ n ∧ seen c + 1 ≤ n ∧
          x = c ++ natDigits n) := by
  intro codes
  induction codes with
  | nil => intro seen x hx; simp [fb] at hx
  | cons c rest ih =>
    intro seen x hx
    rw [fb] at hx
    split at hx
    · rename_i h0
      rcases List.mem_cons.1 hx with h | hx'
      · exact Or.inl ⟨c, List.mem_cons_self c rest, h0, h⟩
      · rcases ih _ x hx' with ⟨d, hd, hd0, hxd⟩ | ⟨d, hd, n, h2, hb, hxd⟩
        · by_cases hdc : d = c
          · rw [if_pos hdc] at hd0; omega
          · refine Or.inl ⟨d, List.mem_cons_of_mem c hd, ?_, hxd⟩
            rwa [if_neg hdc] at hd0
        · refine Or.inr ⟨d, List.mem_cons_of_mem c hd, n, h2, ?_, hxd⟩
          by_cases hdc : d = c
          · rw [if_pos hdc] at hb; rw [hdc, h0]; omega
          · rwa [if_neg hdc] at hb
    · rename_i h0
      rcases List.mem_cons.1 hx with h | hx'
      · exact Or.inr ⟨c, List.mem_cons_self c rest, seen c + 1,
          by omega, by omega, h⟩
      · rcases ih _ x hx' with ⟨d, hd, hd0, hxd⟩ | ⟨d, hd, n, h2, hb, hxd⟩
        · by_cases hdc : d = c
          · rw [if_pos hdc] at hd0; omega
          · refine Or.inl ⟨d, List.mem_cons_of_mem c hd, ?_, hxd⟩
            rwa [if_neg hdc] at hd0
        · refine Or.inr ⟨d, List.mem_cons_of_mem c hd, n, h2, ?_, hxd⟩
          by_cases hdc : d = c
          · rw [if_pos hdc] at hb; rw [hdc]; omega
          · rwa [if_neg hdc] at hb

/-- The fallback pass yields pairwise-distinct codenames whenever no
input codename equals another input codename followed by a non-empty
digit string (which holds when all extensions are letters). -/
theorem fb_nodup :
    ∀ codes,
      (∀ c ∈ codes, ∀ d ∈ codes, ∀ t, t ≠ [] →
        (∀ ch ∈ t, ch ∈ digitChars) → c ≠ d ++ t) →
      ∀ seen, (fb codes seen).Nodup := by
  intro codes
  induction codes with
  | nil => intro _ seen; simp [fb]
  | cons c rest ih =>
    intro H seen
    have Hrest : ∀ c' ∈ rest, ∀ d ∈ rest, ∀ t, t ≠ [] →
        (∀ ch ∈ t, ch ∈ digitChars) → c' ≠ d ++ t :=
      fun c' hc' d hd =>
        H c' (List.mem_cons_of_mem c hc') d (List.mem_cons_of_mem c hd)
    rw [fb]
    split
    · rename_i h0
      refine List.Nodup.cons ?_ (ih Hrest _)
      intro hmem
      rcases fb_mem _ _ _ hmem with ⟨d, hd, hd0, hde⟩ |
        ⟨d, hd, n, h2, hb, hde⟩
      · rw [← hde] at hd0
        simp at hd0
      · exact H c (List.mem_cons_self c rest)
          d (List.mem_cons_of_mem c hd) (natDigits n)
          (natDigits_ne_nil n) (natDigits_digits n) hde
    · rename_i h0
      refine List.Nodup.cons ?_ (ih Hrest _)
      intro hmem
      rcases fb_mem _ _ _ hmem with ⟨d, hd, hd0, hde⟩ |
        ⟨d, hd, n, h2, hb, hde⟩
      · exact H d (List.mem_cons_of_mem c hd)
          c (List.mem_cons_self c rest) (natDigits (seen c + 1))
          (natDigits_ne_nil _) (natDigits_digits _) hde.symm
      · by_cases hdc : d = c
        · rw [hdc] at hde hb
          have hsuf := List.append_cancel_left hde
          have hn := natDigits_inj hsuf
          simp at hb
          omega
        · rcases append_eq_cases c d _ _ hde with ⟨t, hdt, hAt⟩ |
            ⟨t, hct, hBt⟩
          · by_cases ht : t = []
            · rw [ht, List.append_nil] at hdt
              exact hdc hdt
            · have tdig : ∀ ch ∈ t, ch ∈ digitChars := fun ch hch =>
                natDigits_digits _ ch
                  (hAt ▸ List.mem_append.2 (Or.inl hch))
              exact H d (List.mem_cons_of_mem c hd)
                c (List.mem_cons_self c rest) t ht tdig hdt
          · by_cases ht : t = []
            · rw [ht, List.append_nil] at hct
              exact hdc hct.symm
            · have tdig : ∀ ch ∈ t, ch ∈ digitChars := fun ch hch =>
                natDigits_digits _ ch
                  (hBt ▸ List.mem_append.2 (Or.inl hch))
              exact H c (List.mem_cons_self c rest)
                d (List.mem_cons_of_mem c hd) t ht tdig hct

/-! ### Extension loop -/

/-- A character contributed at some offset belongs to its epithet. -/
theorem charAt_sub {s : List Char} {idx : Nat} :
    ∀ c ∈ charAt s idx, c ∈ s := by
  intro c hc
  rw [charAt] at hc
  split at hc
  · rename_i a ha
    rcases List.mem_singleton.1 hc with rfl
    exact List.get?_mem ha
  · simp at hc

/-- One extension iteration keeps one codename per member. -/
theorem extendStep_length {species codes : List (List Char)}
    {idx : Nat} (h : species.length = codes.length) :
    (extendStep species codes idx).length = codes.length := by
  rw [extendStep, List.length_map, List.length_zip, h]
  exact Nat.min_self _

/-- Every output of one extension iteration is an input codename with
at most one character of the corresponding epithet appended. -/
theorem extendStep_mem {species codes : List (List Char)} {idx : Nat} :
    ∀ c' ∈ extendStep species codes idx,
      ∃ c ∈ codes, ∃ t, c' = c ++ t ∧
        ∀ ch ∈ t, ∃ s ∈ species, ch ∈ s := by
  intro c' hc'
  rw [extendStep] at hc'
  rcases List.mem_map.1 hc' with ⟨p, hp, rfl⟩
  have hmem := List.of_mem_zip hp
  split
  · exact ⟨p.2, hmem.2, charAt p.1 idx, rfl,
      fun ch hch => ⟨p.1, hmem.1, charAt_sub ch hch⟩⟩
  · exact ⟨p.2, hmem.2, [], (List.append_nil _).symm, by simp⟩

/-- Every output of the extension loop is an input codename extended by
characters drawn from the group's epithets. -/
theorem extendLoop_mem {species : List (List Char)} :
    ∀ fuel codes idx, ∀ c' ∈ extendLoop species codes idx fuel,
      ∃ c ∈ codes, ∃ t, c' = c ++ t ∧
        ∀ ch ∈ t, ∃ s ∈ species, ch ∈ s := by
  intro fuel
  induction fuel with
  | zero =>
    intro codes idx c' hc'
    exact ⟨c', hc', [], (List.append_nil _).symm, by simp⟩
  | succ fuel ih =>
    intro codes idx c' hc'
    rw [extendLoop] at hc'
    split at hc'
    · rcases ih _ _ c' hc' with ⟨c1, hc1, t1, he1, ht1⟩
      rcases extendStep_mem c1 hc1 with ⟨c0, hc0, t0, he0, ht0⟩
      refine ⟨c0, hc0, t0 ++ t1, ?_, ?_⟩
      · rw [he1, he0, List.append_assoc]
      · intro ch hch
        rcases List.mem_append.1 hch with h | h
        · exact ht0 ch h
        · exact ht1 ch h
    · exact ⟨c', hc', [], (List.append_nil _).symm, by simp⟩

/-- The extension loop keeps one codename per member. -/
theorem extendLoop_length {species : List (List Char)} :
    ∀ fuel codes idx, species.length = codes.length →
      (extendLoop species codes idx fuel).length = codes.length := by
  intro fuel
  induction fuel with
  | zero => intro codes idx _; rfl
  | succ fuel ih =>
    intro codes idx h
    rw [extendLoop]
    split
    · rw [ih (extendStep species codes idx) (idx + 1)
        (h.trans (extendStep_length h).symm)]
      exact extendStep_length h
    · rfl

/-! ### Resolver equations and structure -/

/-- `resolve_ties` on the (unreachable) empty group. -/
theorem resolve_ties_nil (base : List Char) :
    resolve_ties base [] = [] := rfl

/-- A single-member group keeps the base key unchanged. -/
theorem resolve_ties_single (base s : List Char) :
    resolve_ties base [s] = [base] := rfl

/-- Unfolding of `resolve_ties` on a group of two or more members. -/
theorem resolve_ties_cons2 (base a b : List Char)
    (rest : List (List Char)) :
    resolve_ties base (a :: b :: rest) =
      fallback
        (extendLoop (a :: b :: rest)
          (List.replicate (a :: b :: rest).length base) 3
          (maxLen (a :: b :: rest) - 3)) := rfl

/-- Every codename assigned by `resolve_ties` starts with the group's
base key. -/
theorem resolve_key_le (base : List Char) (group : List (List Char)) :
    ∀ c ∈ resolve_ties base group, ∃ t, c = base ++ t := by
  intro c hc
  cases group with
  | nil => simp [resolve_ties_nil] at hc
  | cons a tl =>
    cases tl with
    | nil =>
      rw [resolve_ties_single] at hc
      rcases List.mem_singleton.1 hc with rfl
      exact ⟨[], (List.append_nil _).symm⟩
    | cons b rest =>
      rw [resolve_ties_cons2] at hc
      rcases fb_mem_weak _ _ _ hc with ⟨c1, hc1, t2, ht2⟩
      rcases extendLoop_mem _ _ _ c1 hc1 with ⟨c0, hc0, t1, he, _⟩
      have hc0b : c0 = base := List.eq_of_mem_replicate hc0
      exact ⟨t1 ++ t2, by rw [ht2, he, hc0b, List.append_assoc]⟩

/-- `resolve_ties` assigns exactly one codename per group member. -/
theorem resolve_ties_length (base : List Char)
    (group : List (List Char)) :
    (resolve_ties base group).length = group.length := by
  cases group with
  | nil => rfl
  | cons a tl =>
    cases tl with
    | nil => rfl
    | cons b rest =>
      rw [resolve_ties_cons2]
      show (fb _ _).length = _
      rw [fb_length,
        extendLoop_length _ _ _ (List.length_replicate _ _).symm,
        List.length_replicate]

/-- Codenames assigned by `resolve_ties` are pairwise distinct within
the group, provided the epithets are made of lowercase letters (as the
normalized `species_full` column always is). -/
theorem resolve_ties_nodup (base : List Char)
    (group : List (List Char))
    (hsp : ∀ s ∈ group, ∀ ch ∈ s, ch ∈ lowerChars) :
    (resolve_ties base group).Nodup := by
  cases group with
  | nil => simp [resolve_ties_nil]
  | cons a tl =>
    cases tl with
    | nil => simp [resolve_ties_single]
    | cons b rest =>
      rw [resolve_ties_cons2]
      apply fb_nodup
      intro c hc d hd t ht tdig hcd
      rcases extendLoop_mem _ _ _ c hc with ⟨c0, hc0, e1, he1, hch1⟩
      rcases extendLoop_mem _ _ _ d hd with ⟨d0, hd0, e2, he2, _⟩
      rw [List.eq_of_mem_replicate hc0] at he1
      rw [List.eq_of_mem_replicate hd0] at he2
      rw [he1, he2, List.append_assoc] at hcd
      have he12 : e1 = e2 ++ t := List.append_cancel_left hcd
      cases t with
      | nil => exact ht rfl
      | cons ch ts =>
        have hch : ch ∈ e1 := by
          rw [he12]
          exact List.mem_append.2 (Or.inr (List.mem_cons_self ch ts))
        rcases hch1 ch hch with ⟨s, hs, hchs⟩
        exact lower_not_digit ch (hsp s hs ch hchs)
          (tdig ch (List.mem_cons_self ch ts))

/-! ### Termination bound of the extension loop -/

/-- The fold underlying `maxLen` only grows its accumulator. -/
theorem maxLen_aux_mono :
    ∀ (l : List (List Char)) (a : Nat),
      a ≤ l.foldl (fun x s => max x s.length) a := by
  intro l
  induction l with
  | nil => intro a; exact le_refl a
  | cons s tl ih =>
    intro a
    rw [List.foldl_cons]
    exact le_trans (Nat.le_max_left a s.length) (ih _)

/-- Every member's length is bounded by the fold underlying
`maxLen`. -/
theorem maxLen_aux_mem :
    ∀ (l : List (List Char)) (a : Nat), ∀ s ∈ l,
      s.length ≤ l.foldl (fun x s => max x s.length) a := by
  intro l
  induction l with
  | nil => intro a s hs; simp at hs
  | cons s0 tl ih =>
    intro a s hs
    rcases List.mem_cons.1 hs with rfl | hs'
    · rw [List.foldl_cons]
      exact le_trans (Nat.le_max_right a s.length) (maxLen_aux_mono tl _)
    · rw [List.foldl_cons]
      exact ih _ s hs'

/-- `maxLen` bounds the length of every epithet in the group. -/
theorem maxLen_le (l : List (List Char)) : ∀ s ∈ l, s.length ≤ maxLen l :=
  maxLen_aux_mem l 0

/-- Past every epithet's length, one extension iteration changes
nothing. -/
theorem extendStep_id {species codes : List (List Char)} {idx : Nat}
    (hlen : species.length = codes.length)
    (hidx : ∀ s ∈ species, s.length ≤ idx) :
    extendStep species codes idx = codes := by
  rw [extendStep]
  have hbody : ∀ p ∈ species.zip codes,
      (if 2 ≤ codes.count p.2 then p.2 ++ charAt p.1 idx else p.2) =
        p.2 := by
    intro p hp
    have hp1 := (List.of_mem_zip hp).1
    have hnone : charAt p.1 idx = [] := by
      rw [charAt]
      cases hg : p.1.get? idx with
      | none => rfl
      | some c =>
        rcases List.get?_eq_some.1 hg with ⟨hlt, _⟩
        exact absurd hlt (by have := hidx p.1 hp1; omega)
    rw [hnone, List.append_nil]
    split <;> rfl
  rw [List.map_congr_left hbody]
  exact List.map_snd_zip species codes (le_of_eq hlen.symm)

/-- Past every epithet's length, the whole extension loop changes
nothing. -/
theorem extendLoop_id {species : List (List Char)} :
    ∀ fuel codes idx, species.length = codes.length →
      (∀ s ∈ species, s.length ≤ idx) →
      extendLoop species codes idx fuel = codes := by
  intro fuel
  induction fuel with
  | zero => intro codes idx _ _; rfl
  | succ fuel ih =>
    intro codes idx hlen hidx
    rw [extendLoop]
    split
    · rw [extendStep_id hlen hidx]
      exact ih codes (idx + 1) hlen
        (fun s hs => le_trans (hidx s hs) (Nat.le_succ idx))
    · rfl

/-- Fuel beyond the longest-epithet bound is irrelevant: the extension
loop stabilizes once the offset passes every epithet. -/
theorem extendLoop_stable {species : List (List Char)} :
    ∀ fuel0 codes idx extra, species.length = codes.length →
      (∀ s ∈ species, s.length ≤ idx + fuel0) →
      extendLoop species codes idx (fuel0 + extra) =
        extendLoop species codes idx fuel0 := by
  intro fuel0
  induction fuel0 with
  | zero =>
    intro codes idx extra hlen hidx
    rw [Nat.zero_add]
    exact extendLoop_id extra codes idx hlen
      (fun s hs => by have := hidx s hs; omega)
  | succ fuel0 ih =>
    intro codes idx extra hlen hidx
    have hsucc : fuel0 + 1 + extra = (fuel0 + extra) + 1 := by omega
    rw [hsucc]
    by_cases hcol : anyCollision codes = true
    · rw [extendLoop, if_pos hcol, extendLoop, if_pos hcol]
      exact ih (extendStep species codes idx) (idx + 1) extra
        (hlen.trans (extendStep_length hlen).symm)
        (fun s hs => by have := hidx s hs; omega)
    · rw [extendLoop, if_neg hcol, extendLoop, if_neg hcol]

/-! ### Parser output alphabet -/

/-- Every character of a normalized token is a lowercase letter. -/
theorem normalize_token_chars (T : PyUnicode) (s : List Char) :
    ∀ c ∈ normalize_token T s, c ∈ lowerChars := by
  intro c hc
  have := List.of_mem_filter hc
  simpa using this

/-- Every character of the species field produced by the token scan is
a lowercase letter, provided the incoming species accumulator is. -/
theorem parseLoop_species_chars (T : PyUnicode) :
    ∀ n toks sp sub, toks.length ≤ n → (∀ c ∈ sp, c ∈ lowerChars) →
      ∀ c ∈ (parseLoop T toks sp sub).1, c ∈ lowerChars := by
  intro n
  induction n with
  | zero =>
    intro toks sp sub hn hsp c hc
    cases toks with
    | nil => exact hsp c hc
    | cons raw rest => simp at hn
  | succ n ih =>
    intro toks sp sub hn hsp c hc
    cases toks with
    | nil => exact hsp c hc
    | cons raw rest =>
      rw [parseLoop.eq_def] at hc
      simp only at hc
      simp only [List.length_cons] at hn
      split at hc
      · split at hc
        · exact hsp c hc
        · exact ih _ _ _
            (by simp only [List.length_cons] at hn; omega) hsp c hc
      · split at hc
        · exact ih _ _ _ (by omega) (normalize_token_chars T raw) c hc
        · split at hc
          · exact hsp c hc
          · split at hc
            · exact ih _ _ _
                (by simp only [List.length_cons] at hn; omega) hsp c hc
            · exact ih _ _ _
                (by simp only [List.length_cons] at hn ⊢; omega) hsp c hc

/-- The `species_full` value of any reference row is made of lowercase
letters. -/
theorem speciesOf_chars (T : PyUnicode) (r : String) :
    ∀ c ∈ speciesOf T r, c ∈ lowerChars := by
  intro c hc
  rw [speciesOf, parse_scientific_name] at hc
  split at hc
  · simp at hc
  · simp only at hc
    exact parseLoop_species_chars T _ _ [] [] le_rfl (by simp) c hc

/-! ### Pipeline-level uniqueness -/

/-- The per-group codenames of the pipeline are pairwise distinct for
every group (the epithets are normalized, hence lowercase letters). -/
theorem pipeline_group_nodup (T : PyUnicode) (rows : List String)
    (k : List Char) :
    (resolve_ties k ((groupRows T rows k).map (speciesOf T))).Nodup := by
  apply resolve_ties_nodup
  intro s hs ch hch
  rcases List.mem_map.1 hs with ⟨r, _, rfl⟩
  exact speciesOf_chars T r ch hch

/-- Codenames of the whole table are globally distinct as soon as all
base keys of the table have one common length: within a group by
`resolve_ties_nodup`, across groups because each codename starts with
its own group's key, and equal-length distinct keys cannot both start
one codename. -/
theorem allCodenames_nodup_of_eq_len (T : PyUnicode)
    (rows : List String)
    (hlen : ∀ k1 ∈ keysOf T rows, ∀ k2 ∈ keysOf T rows,
      k1.length = k2.length) :
    (allCodenames T rows).Nodup := by
  rw [allCodenames, List.nodup_flatMap]
  constructor
  · intro k _
    exact pipeline_group_nodup T rows k
  · have hnd : (keysOf T rows).Nodup := List.nodup_dedup _
    refine List.Pairwise.imp_of_mem ?_ hnd
    intro k1 k2 hk1 hk2 hne
    simp only [Function.onFun]
    intro x hx1 hx2
    rcases resolve_key_le _ _ x hx1 with ⟨t1, ht1⟩
    rcases resolve_key_le _ _ x hx2 with ⟨t2, ht2⟩
    rw [ht1] at ht2
    have hkk := hlen k1 hk1 k2 hk2
    rcases append_eq_cases k1 k2 t1 t2 ht2 with ⟨t, hk, _⟩ | ⟨t, hk, _⟩
    · have ht0 : t = [] := by
        have hlenk := congrArg List.length hk
        rw [List.length_append] at hlenk
        exact List.eq_nil_of_length_eq_zero (by omega)
      rw [ht0, List.append_nil] at hk
      exact hne hk.symm
    · have ht0 : t = [] := by
        have hlenk := congrArg List.length hk
        rw [List.length_append] at hlenk
        exact List.eq_nil_of_length_eq_zero (by omega)
      rw [ht0, List.append_nil] at hk
      exact hne hk

/-! ### Fuel-independence of the resolver -/

/-- `resolve_ties` on a multi-member group equals the bounded extension
loop followed by one fallback pass, for any fuel at least
`max_len - 3`: iterations past the longest epithet change nothing, so
the loop terminates within the offset bound. -/
theorem resolve_ties_fuel (base : List Char) (group : List (List Char))
    (fuel : Nat) (h2 : 2 ≤ group.length)
    (hf : maxLen group - 3 ≤ fuel) :
    resolve_ties base group =
      fallback
        (extendLoop group (List.replicate group.length base) 3 fuel) := by
  cases group with
  | nil => simp at h2
  | cons a tl =>
    cases tl with
    | nil => simp at h2
    | cons b rest =>
      rw [resolve_ties_cons2]
      congr 1
      have hfuel : fuel =
          (maxLen (a :: b :: rest) - 3) +
            (fuel - (maxLen (a :: b :: rest) - 3)) := by omega
      rw [hfuel]
      refine (extendLoop_stable _ _ _ _
        (List.length_replicate _ _).symm ?_).symm
      intro s hs
      have := maxLen_le (a :: b :: rest) s hs
      omega

/-! ### Join model -/

/-- Rewriting of the join as per-row merge-then-fill. -/
theorem joinFill_eq (air : List AirRow) (mapping : List MappingRow) :
    joinFill air mapping =
      air.flatMap (fun r => (rowJoin mapping r).map fillName) := by
  rw [joinFill, List.map_flatMap]

/-- Every merged row copies the source row's code, name and remaining
columns. -/
theorem rowJoin_fields (mapping : List MappingRow) (r : AirRow) :
    ∀ r' ∈ rowJoin mapping r,
      r'.code = r.code ∧ r'.name = r.name ∧ r'.other = r.other := by
  intro r' hr'
  rw [rowJoin.eq_def] at hr'
  split at hr'
  · rcases List.mem_singleton.1 hr' with rfl
    exact ⟨rfl, rfl, rfl⟩
  · rcases List.mem_map.1 hr' with ⟨m, _, rfl⟩
    exact ⟨rfl, rfl, rfl⟩

/-- The fill step touches only the name field. -/
theorem fillName_frame (x : MergedRow) :
    (fillName x).code = x.code ∧ (fillName x).other = x.other ∧
      (fillName x).codename = x.codename ∧
      (fillName x).sci_name = x.sci_name := by
  rw [fillName]
  split <;> exact ⟨rfl, rfl, rfl, rfl⟩

/-- The fill step leaves a non-blank name untouched. -/
theorem fillName_nonblank (x : MergedRow)
    (h : isBlank x.name = false) : (fillName x).name = x.name := by
  rw [fillName, h]
  simp

/-! ### Parsed genus -/

/-- Flat-mapping the singleton function is the identity. -/
theorem flatMap_singleton_id (l : List Char) :
    (l.flatMap fun c => [c]) = l := by
  induction l with
  | nil => rfl
  | cons c cs ih => simp [ih]

/-- The genus field is the normalization of the first token. -/
theorem parse_genus_eq (T : PyUnicode) (s : String) (t : List Char)
    (rest : List (List Char)) (h : splitWs s.data = t :: rest) :
    (parse_scientific_name T s).genus = normalize_token T t := by
  rw [parse_scientific_name, h]

/-- Under the ASCII tables, a Latin letter of the input survives
normalization (as its lowercase form). -/
theorem normalize_token_ne_nil (t : List Char) (c : Char) (hc : c ∈ t)
    (hlat : c ∈ latinLetters) :
    normalize_token asciiTables t ≠ [] := by
  have h1 : c ∈ t.flatMap asciiTables.nfkd := by
    show c ∈ t.flatMap fun c => [c]
    rw [flatMap_singleton_id]
    exact hc
  have h2 : c ∈ (t.flatMap asciiTables.nfkd).filter
      (fun c => !asciiTables.combining c) :=
    List.mem_filter.2 ⟨h1, rfl⟩
  have h3 : c.toLower ∈ ((t.flatMap asciiTables.nfkd).filter
      (fun c => !asciiTables.combining c)).flatMap asciiTables.lower :=
    List.mem_flatMap.2 ⟨c, h2, by show c.toLower ∈ [c.toLower]; simp⟩
  have h4 : c.toLower ∈ normalize_token asciiTables t := by
    rw [normalize_token]
    refine List.mem_filter.2 ⟨h3, ?_⟩
    simpa using latin_toLower_mem c hlat
  exact List.ne_nil_of_mem h4

/-! ### Remaining helper lemmas for the claims -/

/-- Flat-mapping a function that fixes every member is the identity. -/
theorem flatMap_id_of (f : Char → List Char) :
    ∀ l : List Char, (∀ c ∈ l, f c = [c]) → l.flatMap f = l := by
  intro l
  induction l with
  | nil => intro _; rfl
  | cons c cs ih =>
    intro h
    rw [List.flatMap_cons, h c (List.mem_cons_self c cs),
      ih (fun x hx => h x (List.mem_cons_of_mem c hx))]
    rfl

/-- A second normalization pass is the identity on any all-lowercase
string, whenever the Unicode tables fix the lowercase alphabet (as the
real ones do: `a`-`z` are NFKD-invariant, non-combining, and fixed by
lowercasing). -/
theorem normalize_token_fix (T : PyUnicode)
    (hT : ∀ c ∈ lowerChars,
      T.nfkd c = [c] ∧ T.combining c = false ∧ T.lower c = [c])
    (l : List Char) (hl : ∀ c ∈ l, c ∈ lowerChars) :
    normalize_token T l = l := by
  have h1 : l.flatMap T.nfkd = l :=
    flatMap_id_of T.nfkd l (fun c hc => (hT c (hl c hc)).1)
  have h2 : List.filter (fun c => !T.combining c) l = l :=
    List.filter_eq_self.2
      (fun c hc => by rw [(hT c (hl c hc)).2.1]; rfl)
  have h3 : l.flatMap T.lower = l :=
    flatMap_id_of T.lower l (fun c hc => (hT c (hl c hc)).2.2)
  rw [normalize_token, h1, h2, h3]
  exact List.filter_eq_self.2 (fun c hc => by simpa using hl c hc)

/-! ## The claims -/

/-- Claim C1: on every non-empty collision group (whose species
epithets are normalized, hence lowercase letters), `resolve_ties`
returns exactly one codename per member — it never fails — and no two
members of the group receive the same codename, even when two members
have identical epithets. -/
theorem claim_C1 (base : List Char) (group : List (List Char))
    (_hne : group ≠ [])
    (hsp : ∀ s ∈ group, ∀ ch ∈ s, ch ∈ lowerChars) :
    (resolve_ties base group).length = group.length ∧
      (resolve_ties base group).Nodup :=
  ⟨resolve_ties_length base group, resolve_ties_nodup base group hsp⟩

/-- Claim C1 witness: a group of two identical epithets resolves to two
distinct codenames. -/
theorem claim_C1_witness :
    (resolve_ties "ab".data ["abcd".data, "abcd".data]).length =
        (["abcd".data, "abcd".data] : List (List Char)).length ∧
      (resolve_ties "ab".data ["abcd".data, "abcd".data]).Nodup :=
  claim_C1 "ab".data ["abcd".data, "abcd".data] (by decide) (by decide)

/-- Claim C2 counterexample: codenames are not unique across the whole
reference table.  The group of base key `parsul` extends
`Parmelia sulcat` to the codename `parsulcat`, which equals the
untouched codename of the singleton group of base key `parsulcat`
(`Parmelia sul var. cat`), so the full table carries a duplicate. -/
theorem claim_C2_counterexample :
    ¬ (allCodenames asciiTables
        ["Parmelia sulcat", "Parmelia sulcax",
          "Parmelia sul var. cat"]).Nodup := by
  decide

/-- Claim C2 as amended: codenames are unique across the entire
reference table provided all base keys of the table have the same
length (in particular whenever every row yields three-letter genus and
species contributions and the same subspecies status); groups whose
base keys differ in length can collide across groups.  Within each
group uniqueness is unconditional. -/
theorem claim_C2_amended (T : PyUnicode) (rows : List String)
    (hlen : ∀ k1 ∈ keysOf T rows, ∀ k2 ∈ keysOf T rows,
      k1.length = k2.length) :
    (allCodenames T rows).Nodup :=
  allCodenames_nodup_of_eq_len T rows hlen

/-- Claim C2 witness: a two-row table with equal-length base keys gets
globally distinct codenames. -/
theorem claim_C2_witness :
    (allCodenames asciiTables
      ["Parmelia sulcata", "Parmelia sulfurea"]).Nodup :=
  claim_C2_amended asciiTables ["Parmelia sulcata", "Parmelia sulfurea"]
    (by decide)

/-- Claim C3: the group's shared base key starts every codename the
resolver assigns, and a single-member group keeps the base key
unchanged. -/
theorem claim_C3 (base : List Char) (group : List (List Char)) :
    (∀ c ∈ resolve_ties base group, base <+: c) ∧
      (∀ s, group = [s] → resolve_ties base group = [base]) := by
  constructor
  · intro c hc
    rcases resolve_key_le base group c hc with ⟨t, ht⟩
    exact ⟨t, ht.symm⟩
  · intro s hs
    rw [hs, resolve_ties_single]

/-- Claim C3 witness: `parsul` starts the extended codename
`parsulcat`, and a singleton group keeps `xanpar` unchanged. -/
theorem claim_C3_witness :
    "parsul".data <+: "parsulcat".data ∧
      resolve_ties "xanpar".data ["parietina".data] = ["xanpar".data] :=
  ⟨(claim_C3 "parsul".data ["sulcat".data, "sulcax".data]).1
      "parsulcat".data (by decide),
    (claim_C3 "xanpar".data ["parietina".data]).2 "parietina".data rfl⟩

/-- Claim C4: collision resolution terminates within the offset bound:
on any group of at least two members, `resolve_ties` equals the
extension loop run with any fuel of at least `max_len - 3` offsets —
iterations past the longest epithet change nothing — followed by
exactly one fallback pass. -/
theorem claim_C4 (base : List Char) (group : List (List Char))
    (fuel : Nat) (h2 : 2 ≤ group.length)
    (hf : maxLen group - 3 ≤ fuel) :
    resolve_ties base group =
      fallback
        (extendLoop group (List.replicate group.length base) 3 fuel) :=
  resolve_ties_fuel base group fuel h2 hf

/-- Claim C4 witness: the `parsul` group resolves identically with the
bounded fuel and with a much larger fuel. -/
theorem claim_C4_witness :
    resolve_ties "parsul".data ["sulcat".data, "sulcax".data] =
      fallback
        (extendLoop ["sulcat".data, "sulcax".data]
          (List.replicate 2 "parsul".data) 3 10) :=
  claim_C4 "parsul".data ["sulcat".data, "sulcax".data] 10 (by decide)
    (by decide)

/-- Claim C5 counterexample: a no-match record is not always unchanged
end-to-end: a record whose name is a whitespace-only string (blank but
present) has its name overwritten with the missing value by the fill
step even though its lookup key has no entry in the mapping. -/
theorem claim_C5_counterexample :
    (joinFill [⟨"zzz", some " ", []⟩] []).map MergedRow.name ≠
      [(⟨"zzz", some " ", []⟩ : AirRow).name] := by
  decide

/-- Claim C5 as amended: the join is fill-only on non-blank names — a
record whose name is non-blank keeps its name, code and remaining
columns byte-identical — and a no-match record passes through with its
code and columns unchanged, except that a blank name is overwritten
with the (missing) `sci_name` value. -/
theorem claim_C5_amended (mapping : List MappingRow) (r : AirRow) :
    (isBlank r.name = false →
      ∀ r' ∈ (rowJoin mapping r).map fillName,
        r'.name = r.name ∧ r'.code = r.code ∧ r'.other = r.other) ∧
      (rowMatches mapping r = [] →
        (rowJoin mapping r).map fillName =
          [⟨r.code, if isBlank r.name then none else r.name, r.other,
            none, none⟩]) ∧
      joinFill [r] mapping = (rowJoin mapping r).map fillName := by
  refine ⟨?_, ?_, ?_⟩
  · intro hnb r' hr'
    rcases List.mem_map.1 hr' with ⟨y, hy, rfl⟩
    obtain ⟨hcode, hname, hother⟩ := rowJoin_fields mapping r y hy
    have hb : isBlank y.name = false := by rw [hname]; exact hnb
    refine ⟨?_, ?_, ?_⟩
    · rw [fillName_nonblank y hb, hname]
    · rw [(fillName_frame y).1, hcode]
    · rw [(fillName_frame y).2.1, hother]
  · intro hnm
    rw [rowJoin.eq_def, hnm]
    by_cases hb : isBlank r.name <;> simp [fillName, hb]
  · simp [joinFill_eq]

/-- Claim C5 witness: a matched record with the non-blank name `Keep`
keeps its name, code and columns through the join. -/
theorem claim_C5_witness :
    (⟨"abc", some "Keep", [], some "abc",
        some "Parmelia sulcata"⟩ : MergedRow).name =
        (⟨"abc", some "Keep", []⟩ : AirRow).name ∧
      (⟨"abc", some "Keep", [], some "abc",
          some "Parmelia sulcata"⟩ : MergedRow).code =
        (⟨"abc", some "Keep", []⟩ : AirRow).code ∧
      (⟨"abc", some "Keep", [], some "abc",
          some "Parmelia sulcata"⟩ : MergedRow).other =
        (⟨"abc", some "Keep", []⟩ : AirRow).other :=
  (claim_C5_amended [⟨"abc", "Parmelia sulcata"⟩]
      ⟨"abc", some "Keep", []⟩).1 (by decide) _ (by decide)

/-- Claim C6 counterexample: the output table does not have the same
columns as the input target table: the merge appends the mapping
table's `codename` and `sci_name` columns to every emitted row. -/
theorem claim_C6_counterexample :
    (joinFill [⟨"k", some "n", []⟩] []).map MergedRow.columns ≠
      [(⟨"k", some "n", []⟩ : AirRow).columns] := by
  decide

/-- Claim C6 as amended: every output row carries exactly the input
target columns — the name column filled where blank and the lookup
column preserved as-is — plus the two columns `codename` and
`sci_name` appended by the merge. -/
theorem claim_C6_amended (air : List AirRow)
    (mapping : List MappingRow) :
    ∀ r' ∈ joinFill air mapping, ∃ r ∈ air,
      MergedRow.columns r' =
          AirRow.columns r ++ ["codename", "sci_name"] ∧
        r'.code = r.code := by
  intro r' hr'
  rw [joinFill] at hr'
  rcases List.mem_map.1 hr' with ⟨y, hy, rfl⟩
  rcases List.mem_flatMap.1 hy with ⟨r, hr, hyr⟩
  obtain ⟨hcode, _, hother⟩ := rowJoin_fields mapping r y hyr
  refine ⟨r, hr, ?_, ?_⟩
  · rw [MergedRow.columns, AirRow.columns, (fillName_frame y).2.1,
      hother]
  · rw [(fillName_frame y).1, hcode]

/-- Claim C6 witness: the single output row of a one-row join carries
the input columns plus `codename` and `sci_name`. -/
theorem claim_C6_witness :
    MergedRow.columns (⟨"k", some "n", [], none, none⟩ : MergedRow) =
      AirRow.columns (⟨"k", some "n", []⟩ : AirRow) ++
        ["codename", "sci_name"] := by
  rcases claim_C6_amended [⟨"k", some "n", []⟩] []
      ⟨"k", some "n", [], none, none⟩ (by decide) with
    ⟨r, hr, hcols, _⟩
  rcases List.mem_singleton.1 hr with rfl
  exact hcols

/-- Claim C7 counterexample: a non-empty token list does not guarantee
a non-empty genus: a first token without letters (here `123`) tokenizes
to a non-empty list but normalizes to the empty genus. -/
theorem claim_C7_counterexample :
    splitWs ("123" : String).data ≠ [] ∧
      (parse_scientific_name asciiTables "123").genus = [] := by
  decide

/-- Claim C7 as amended: the genus is the normalization of the first
token; it is non-empty whenever the first token contains at least one
Latin letter, and may be empty otherwise.  (Species and subspecies may
always be empty.) -/
theorem claim_C7_amended (s : String) (t : List Char)
    (rest : List (List Char)) (h : splitWs s.data = t :: rest) :
    (parse_scientific_name asciiTables s).genus =
        normalize_token asciiTables t ∧
      ((∃ c ∈ t, c ∈ latinLetters) →
        (parse_scientific_name asciiTables s).genus ≠ []) := by
  refine ⟨parse_genus_eq asciiTables s t rest h, ?_⟩
  rintro ⟨c, hc, hlat⟩
  rw [parse_genus_eq asciiTables s t rest h]
  exact normalize_token_ne_nil t c hc hlat

/-- Claim C7 witness: `Xanthoria parietina` parses to a non-empty
genus. -/
theorem claim_C7_witness :
    (parse_scientific_name asciiTables "Xanthoria parietina").genus ≠
      [] :=
  (claim_C7_amended "Xanthoria parietina" "Xanthoria".data
      ["parietina".data] (by decide)).2 ⟨'X', by decide, by decide⟩

/-- Claim C8 counterexample: the spec's example keys are wrong: the
base key of `Physcia adscendens` is not `phyaip`, and the base key of
`Physcia aipolia` is not `physad` (the latter matches neither taxon). -/
theorem claim_C8_counterexample :
    baseKeyOf asciiTables "Physcia adscendens" ≠ "phyaip".data ∧
      baseKeyOf asciiTables "Physcia aipolia" ≠ "physad".data := by
  decide

/-- Claim C8 as amended: the two taxa base-key to `phyads` and `phyaip`
respectively; the keys agree at position 3 and first differ at position
4 (`d` versus `i`), so no collision occurs and each codename equals its
own base key unchanged. -/
theorem claim_C8_amended :
    baseKeyOf asciiTables "Physcia adscendens" = "phyads".data ∧
      baseKeyOf asciiTables "Physcia aipolia" = "phyaip".data ∧
      "phyads".data ≠ "phyaip".data ∧
      ("phyads".data).get? 3 = ("phyaip".data).get? 3 ∧
      ("phyads".data).get? 4 = some 'd' ∧
      ("phyaip".data).get? 4 = some 'i' ∧
      allCodenames asciiTables
          ["Physcia adscendens", "Physcia aipolia"] =
        ["phyads".data, "phyaip".data] := by
  decide

/-- Claim C9: when the merged table lacks the `Name` column the fill
step fails with the `ValueError` message and produces no output; when
the column is present the error branch is not taken and the filled rows
are returned. -/
theorem claim_C9 (cols : List String) (rows : List MergedRow) :
    (name_col ∉ cols →
        run_fill cols rows =
          Except.error "Name column 'Name' not found in air file.") ∧
      (name_col ∈ cols →
        run_fill cols rows = Except.ok (rows.map fillName)) := by
  constructor
  · intro h
    rw [run_fill, if_neg h]
  · intro h
    rw [run_fill, if_pos h]

/-- Claim C9 witness: a column list without `Name` errors; the merged
columns of a table containing `Name` succeed. -/
theorem claim_C9_witness :
    run_fill ["Year"] [] =
        Except.error "Name column 'Name' not found in air file." ∧
      run_fill (mergedCols ["Name"]) [] = Except.ok [] :=
  ⟨(claim_C9 ["Year"] []).1 (by decide),
    (claim_C9 (mergedCols ["Name"]) []).2 (by decide)⟩

/-- Claim C10: `normalize_token` emits only characters `a`-`z` (in
particular no digits), and it is idempotent — given that the Unicode
tables fix the lowercase alphabet, as the real NFKD, combining-class
and lowercasing functions do. -/
theorem claim_C10 (T : PyUnicode) (s : List Char)
    (hT : ∀ c ∈ lowerChars,
      T.nfkd c = [c] ∧ T.combining c = false ∧ T.lower c = [c]) :
    (∀ c ∈ normalize_token T s, c ∈ lowerChars) ∧
      normalize_token T (normalize_token T s) =
        normalize_token T s :=
  ⟨normalize_token_chars T s,
    normalize_token_fix T hT (normalize_token T s)
      (normalize_token_chars T s)⟩

/-- Claim C10 witness: normalizing `Abc9x` yields lowercase output
(containing `b`) and a second pass changes nothing. -/
theorem claim_C10_witness :
    'b' ∈ lowerChars ∧
      normalize_token asciiTables
          (normalize_token asciiTables "Abc9x".data) =
        normalize_token asciiTables "Abc9x".data :=
  ⟨(claim_C10 asciiTables "Abc9x".data (by decide)).1 'b' (by decide),
    (claim_C10 asciiTables "Abc9x".data (by decide)).2⟩
